import Mathlib

/-!
Shallow embedding of src/App.py: the golf-course directory cache
(Overpass elements, access normalization, TTL-gated refresh, keyed upserts)
and the scoring store (rounds and per-hole upserts).

Tables are modelled as lists of rows together with the next AUTOINCREMENT id.
Timestamps are integers standing for instants: the ISO-8601 UTC strings
written by utc_now_iso compare lexicographically exactly as their instants
compare, so SQL MAX over the stored strings is MAX over these integers.
Coordinates are rationals; no arithmetic is ever performed on them.
-/

namespace GolfApp

/-- One raw element of the Overpass response: node/way/relation with an
integer id, optional direct coordinates, an optional computed center and a
tag mapping (a missing tags object is embedded as the empty list). -/
structure RawElement where
  type : String
  id : Int
  lat : Option Rat
  lon : Option Rat
  center : Option (Rat × Rat)
  tags : List (String × String)

/-- COURSE_CACHE_TTL_SEC from App.py: seven days, in seconds. -/
def COURSE_CACHE_TTL_SEC : Int := 7 * 24 * 3600

/-- element_center_lat_lon from App.py: nodes carry lat/lon directly;
ways/relations use the computed center when present. -/
def element_center_lat_lon (el : RawElement) : Option Rat × Option Rat :=
  if el.type = "node" then (el.lat, el.lon)
  else
    match el.center with
    | some c => (some c.1, some c.2)
    | none => (none, none)

/-- Drop leading and trailing whitespace from a character list, as Python
str.strip does. -/
def pyStrip (l : List Char) : List Char :=
  ((l.dropWhile Char.isWhitespace).reverse.dropWhile Char.isWhitespace).reverse

/-- Embedding of Python s.strip().lower(), written over the character list
so that it evaluates inside the kernel. -/
def strip_lower (s : String) : String :=
  ((pyStrip s.toList).map Char.toLower).asString

/-- normalize_access from App.py. A present, non-empty access tag is
returned stripped and lower-cased as is; otherwise membership yes/required
gives "private"; otherwise "unknown". -/
def normalize_access (tags : List (String × String)) : String :=
  let access := strip_lower ((tags.lookup "access").getD "")
  if access ≠ "" then access
  else
    let membership := strip_lower ((tags.lookup "membership").getD "")
    if membership = "yes" ∨ membership = "required" then "private" else "unknown"

/-- Embedding of Python str(tags) used for the raw_tags_json column: a
deterministic rendering of the tag mapping. Claims only ever carry this
value around opaquely. -/
def pyReprTags (tags : List (String × String)) : String :=
  "\x7b" ++ String.intercalate ", "
    (tags.map fun p => "\x27" ++ p.1 ++ "\x27: \x27" ++ p.2 ++ "\x27") ++ "\x7d"

/-- The loop guard in upsert_courses: name = tags.get("name"); if not name:
continue. A missing or empty name makes the element unusable. -/
def usableName (el : RawElement) : Option String :=
  match el.tags.lookup "name" with
  | some n => if n = "" then none else some n
  | none => none

/-- One row of the courses table. -/
structure CourseRow where
  id : Int
  osm_type : String
  osm_id : Int
  name : String
  lat : Option Rat
  lon : Option Rat
  access : String
  raw_tags_json : String
  updated_at_utc : Int

/-- The courses table: rows plus the next AUTOINCREMENT id. -/
structure CoursesTable where
  rows : List CourseRow
  nextId : Int

/-- The natural key UNIQUE(osm_type, osm_id). -/
def courseKey (r : CourseRow) : String × Int := (r.osm_type, r.osm_id)

/-- The mutable fields written by the ON CONFLICT DO UPDATE clause of
upsert_courses (everything except the id and the key). -/
structure CourseFields where
  name : String
  lat : Option Rat
  lon : Option Rat
  access : String
  raw_tags_json : String

/-- The field values upsert_courses computes for one usable element. -/
def fieldsOfEl (el : RawElement) (name : String) : CourseFields :=
  { name := name
    lat := (element_center_lat_lon el).1
    lon := (element_center_lat_lon el).2
    access := normalize_access el.tags
    raw_tags_json := pyReprTags el.tags }

/-- Overwrite the mutable fields of a row, as DO UPDATE SET does. -/
def setFields (r : CourseRow) (f : CourseFields) (now : Int) : CourseRow :=
  { r with name := f.name, lat := f.lat, lon := f.lon,
           access := f.access, raw_tags_json := f.raw_tags_json,
           updated_at_utc := now }

/-- A freshly inserted courses row. -/
def newCourseRow (id : Int) (k : String × Int) (f : CourseFields) (now : Int) : CourseRow :=
  { id := id, osm_type := k.1, osm_id := k.2, name := f.name, lat := f.lat,
    lon := f.lon, access := f.access, raw_tags_json := f.raw_tags_json,
    updated_at_utc := now }

/-- INSERT INTO courses ... ON CONFLICT(osm_type, osm_id) DO UPDATE: update
the row carrying the key if one exists, else append a new row. -/
def upsertCourseRow (db : CoursesTable) (k : String × Int) (f : CourseFields)
    (now : Int) : CoursesTable :=
  if ∃ r ∈ db.rows, courseKey r = k then
    { db with rows := db.rows.map fun r =>
        if courseKey r = k then setFields r f now else r }
  else
    { rows := db.rows ++ [newCourseRow db.nextId k f now], nextId := db.nextId + 1 }

/-- The body of the upsert_courses loop for one element: skip it when it has
no usable name, otherwise upsert it under its (osm_type, osm_id) key. -/
def applyElement (now : Int) (db : CoursesTable) (el : RawElement) : CoursesTable :=
  match usableName el with
  | none => db
  | some n => upsertCourseRow db (el.type, el.id) (fieldsOfEl el n) now

/-- The table produced by upsert_courses from App.py over a batch of
elements. The Python code stamps each row with utc_now_iso at write time;
the whole batch is embedded with a single timestamp parameter. -/
def upsert_courses_table (elements : List RawElement) (now : Int)
    (db : CoursesTable) : CoursesTable :=
  elements.foldl (applyElement now) db

/-- upsert_courses from App.py: the merged table together with the updated
counter, which counts exactly the elements that were not skipped. -/
def upsert_courses (elements : List RawElement) (now : Int)
    (db : CoursesTable) : CoursesTable × Nat :=
  (upsert_courses_table elements now db,
   (elements.filter fun el => (usableName el).isSome).length)

/-- courses_last_updated from App.py: SELECT MAX(updated_at_utc), none when
the table is empty. -/
def courses_last_updated (db : CoursesTable) : Option Int :=
  (db.rows.map fun r => r.updated_at_utc).max?

/-- The two status messages maybe_refresh_courses can format, reduced to
their information content. -/
inductive RefreshStatus where
  | usingCached (last : Int)
  | refreshed (count : Nat)

/-- maybe_refresh_courses from App.py. The elements the Overpass call would
return are passed as the fetched parameter; on the cache-hit path the code
returns before issuing that call, so the result does not depend on it. -/
def maybe_refresh_courses (db : CoursesTable) (fetched : List RawElement)
    (now : Int) (force : Bool) : CoursesTable × RefreshStatus :=
  match courses_last_updated db with
  | some last =>
    if force = false ∧ now - last < COURSE_CACHE_TTL_SEC then
      (db, RefreshStatus.usingCached last)
    else
      let p := upsert_courses fetched now db
      (p.1, RefreshStatus.refreshed p.2)
  | none =>
    let p := upsert_courses fetched now db
    (p.1, RefreshStatus.refreshed p.2)

/-- Embedding of the Python idiom s or None used by create_round and
upsert_hole for optional strings. -/
def orNone (s : String) : Option String := if s = "" then none else some s

/-- One row of the rounds table. -/
structure RoundRow where
  id : Int
  played_on : String
  course_id : Int
  tees : Option String
  round_notes : Option String
  created_at_utc : Int

/-- The rounds table: rows plus the next AUTOINCREMENT id. -/
structure RoundsTable where
  rows : List RoundRow
  nextId : Int

/-- create_round from App.py, returning the new table and lastrowid. The
schema declares FOREIGN KEY(course_id) REFERENCES courses(id), but the
connection never executes PRAGMA foreign_keys = ON and sqlite3 leaves
foreign-key enforcement off by default, so the INSERT succeeds whether or
not the course exists — hence no error path in the embedding. -/
def create_round (db : RoundsTable) (course_id : Int)
    (played_on tees notes : String) (now : Int) : RoundsTable × Int :=
  ({ rows := db.rows ++
      [{ id := db.nextId, played_on := played_on, course_id := course_id,
         tees := orNone tees, round_notes := orNone notes,
         created_at_utc := now }],
     nextId := db.nextId + 1 },
   db.nextId)

/-- One row of the holes table. -/
structure HoleRow where
  id : Int
  round_id : Int
  hole_number : Int
  strokes : Int
  putts : Option Int
  penalties : Option Int
  hole_comment : Option String

/-- The holes table: rows plus the next AUTOINCREMENT id. -/
structure HolesTable where
  rows : List HoleRow
  nextId : Int

/-- The sqlite3.IntegrityError raised when a CHECK constraint of the holes
schema fails; the spec calls this ValidationError. -/
inductive HoleWriteError where
  | validationError

/-- upsert_hole from App.py. The CHECK constraints of the holes schema
(hole_number BETWEEN 1 AND 18, strokes BETWEEN 1 AND 25) reject the write
before any row is touched; otherwise INSERT ... ON CONFLICT(round_id,
hole_number) DO UPDATE overwrites the row carrying the key or appends a
new one. As with rounds, the declared FOREIGN KEY on round_id is never
enforced because PRAGMA foreign_keys is never enabled. -/
def upsert_hole (db : HolesTable) (round_id hole_number strokes : Int)
    (putts penalties : Option Int) (comment : String) :
    Except HoleWriteError HolesTable :=
  if ¬(1 ≤ hole_number ∧ hole_number ≤ 18) ∨ ¬(1 ≤ strokes ∧ strokes ≤ 25) then
    Except.error HoleWriteError.validationError
  else if ∃ r ∈ db.rows, r.round_id = round_id ∧ r.hole_number = hole_number then
    Except.ok { db with rows := db.rows.map fun r =>
      if r.round_id = round_id ∧ r.hole_number = hole_number then
        { r with strokes := strokes, putts := putts, penalties := penalties,
                 hole_comment := orNone comment }
      else r }
  else
    Except.ok
      { rows := db.rows ++
          [{ id := db.nextId, round_id := round_id, hole_number := hole_number,
             strokes := strokes, putts := putts, penalties := penalties,
             hole_comment := orNone comment }],
        nextId := db.nextId + 1 }

/-- The conversion main applies to putts and penalties before calling
upsert_hole: putts if putts > 0 else None. -/
def pos_or_none (n : Int) : Option Int := if 0 < n then some n else none

/-- Number of holes rows carrying a given (round_id, hole_number) key. -/
def holeKeyCount (db : HolesTable) (round_id hole_number : Int) : Nat :=
  (db.rows.filter fun r =>
    r.round_id = round_id ∧ r.hole_number = hole_number).length

/-- Erase the updated_at_utc stamp of a row (for comparing sync results up
to refresh time). -/
def eraseRowTime (r : CourseRow) : CourseRow := { r with updated_at_utc := 0 }

/-- Erase all updated_at_utc stamps of a courses table. -/
def eraseTimes (db : CoursesTable) : CoursesTable :=
  { rows := db.rows.map eraseRowTime, nextId := db.nextId }

/-- Field values of the last element of a batch that is usable and carries
the given key; none when no usable element of the batch has that key. -/
def lastFields : List RawElement → String × Int → Option CourseFields
  | [], _ => none
  | el :: rest, k =>
    match lastFields rest k with
    | some f => some f
    | none =>
      match usableName el with
      | none => none
      | some n => if (el.type, el.id) = k then some (fieldsOfEl el n) else none

/-- Rewrite a row to the field values of the last batch element carrying
its key, if any. -/
def overrideRow (es : List RawElement) (now : Int) (r : CourseRow) : CourseRow :=
  match lastFields es (courseKey r) with
  | some f => setFields r f now
  | none => r

/-- Empty courses table of a fresh database. -/
def emptyCourses : CoursesTable := { rows := [], nextId := 1 }

/-- Empty rounds table of a fresh database. -/
def emptyRounds : RoundsTable := { rows := [], nextId := 1 }

/-- Empty holes table of a fresh database. -/
def emptyHoles : HolesTable := { rows := [], nextId := 1 }

/-- A courses table with one cached row stamped at time 100. -/
def ttlWitnessDb : CoursesTable :=
  { rows := [{ id := 1, osm_type := "node", osm_id := 7, name := "Cobbs Creek",
               lat := none, lon := none, access := "unknown", raw_tags_json := "",
               updated_at_utc := 100 }],
    nextId := 2 }

/-- The hole row written by the save path for hole 1 with strokes 4 and
zero putts and penalties. -/
def holeRowZeroSave : HoleRow :=
  { id := 1, round_id := 1, hole_number := 1, strokes := 4,
    putts := none, penalties := none, hole_comment := none }

/-- A named element fixture. -/
def namedEl : RawElement :=
  { type := "way", id := 42, lat := none, lon := none, center := none,
    tags := [("name", "Green Valley"), ("access", "private")] }

/-- A nameless element fixture. -/
def namelessEl : RawElement :=
  { type := "node", id := 7, lat := none, lon := none, center := none,
    tags := [("leisure", "golf_course")] }

/-- A courses table holding one row whose key matches namedEl. -/
def oneRowDb : CoursesTable :=
  { rows := [{ id := 1, osm_type := "way", osm_id := 42, name := "Old Name",
               lat := none, lon := none, access := "unknown", raw_tags_json := "",
               updated_at_utc := 0 }],
    nextId := 2 }

/-- The holes table after writing hole 5 of round 1 with strokes 4. -/
def holesRoundOneFirst : HolesTable :=
  { rows := [{ id := 1, round_id := 1, hole_number := 5, strokes := 4,
               putts := none, penalties := none, hole_comment := none }],
    nextId := 2 }

/-- The holes table after overwriting hole 5 of round 1 with strokes 6. -/
def holesRoundOneSecond : HolesTable :=
  { rows := [{ id := 1, round_id := 1, hole_number := 5, strokes := 6,
               putts := none, penalties := none, hole_comment := none }],
    nextId := 2 }

/-! ## Helper lemmas shared across claims -/

theorem upsert_hole_ok_fields (db db' : HolesTable) (rid hn s : Int)
    (p pe : Option Int) (c : String)
    (h : upsert_hole db rid hn s p pe c = Except.ok db') :
    ∀ r ∈ db'.rows, r.round_id = rid → r.hole_number = hn →
      r.strokes = s ∧ r.putts = p ∧ r.penalties = pe ∧ r.hole_comment = orNone c := by
  unfold upsert_hole at h
  split at h
  · exact absurd h (by simp)
  split at h
  next hex =>
    injection h with h
    subst h
    intro r hr h1 h2
    simp only [List.mem_map] at hr
    obtain ⟨r0, hr0, hre⟩ := hr
    by_cases hk : r0.round_id = rid ∧ r0.hole_number = hn
    · rw [if_pos hk] at hre; subst hre; simp
    · rw [if_neg hk] at hre; subst hre; exact absurd ⟨h1, h2⟩ hk
  next hex =>
    injection h with h
    subst h
    intro r hr h1 h2
    simp only [List.mem_append, List.mem_singleton] at hr
    rcases hr with hr | hr
    · exact absurd ⟨r, hr, h1, h2⟩ hex
    · subst hr; simp

theorem length_filter_map_eq {α : Type} (f : α → α) (p : α → Bool)
    (hp : ∀ a, p (f a) = p a) (l : List α) :
    ((l.map f).filter p).length = (l.filter p).length := by
  induction l with
  | nil => rfl
  | cons a l ih =>
    simp only [List.map_cons, List.filter_cons, hp]
    cases h : p a <;> simp [ih]

theorem upsert_hole_ok_count (db db' : HolesTable) (rid hn s : Int)
    (p pe : Option Int) (c : String)
    (h : upsert_hole db rid hn s p pe c = Except.ok db') :
    holeKeyCount db' rid hn = max (holeKeyCount db rid hn) 1 := by
  unfold upsert_hole at h
  split at h
  · exact absurd h (by simp)
  split at h
  next hex =>
    injection h with h
    subst h
    unfold holeKeyCount
    have hlen := length_filter_map_eq
      (fun r : HoleRow =>
        if r.round_id = rid ∧ r.hole_number = hn then
          { r with strokes := s, putts := p, penalties := pe,
                   hole_comment := orNone c }
        else r)
      (fun r => decide (r.round_id = rid ∧ r.hole_number = hn))
      (fun a => by by_cases hk : a.round_id = rid ∧ a.hole_number = hn <;> simp [hk])
      db.rows
    obtain ⟨r, hr, hcond⟩ := hex
    have hmem : r ∈ db.rows.filter fun r => r.round_id = rid ∧ r.hole_number = hn :=
      List.mem_filter.mpr ⟨hr, by simp [hcond.1, hcond.2]⟩
    have hpos := List.length_pos_of_mem hmem
    dsimp only
    rw [hlen]
    omega
  next hex =>
    injection h with h
    subst h
    have hnil : db.rows.filter (fun r => r.round_id = rid ∧ r.hole_number = hn) = [] := by
      rw [List.filter_eq_nil_iff]
      intro r hr
      simp only [decide_eq_true_eq]
      exact fun hc => hex ⟨r, hr, hc⟩
    unfold holeKeyCount
    dsimp only
    rw [List.filter_append, hnil]
    simp

theorem courseKey_setFields (r : CourseRow) (f : CourseFields) (now : Int) :
    courseKey (setFields r f now) = courseKey r := rfl

theorem setFields_setFields (r : CourseRow) (f1 : CourseFields) (t1 : Int)
    (f2 : CourseFields) (t2 : Int) :
    setFields (setFields r f1 t1) f2 t2 = setFields r f2 t2 := rfl

theorem courseKey_newCourseRow (id : Int) (k : String × Int) (f : CourseFields)
    (now : Int) : courseKey (newCourseRow id k f now) = k := by
  obtain ⟨a, b⟩ := k; rfl

theorem courseKey_if_update (k : String × Int) (f : CourseFields) (now : Int)
    (r : CourseRow) :
    courseKey (if courseKey r = k then setFields r f now else r) = courseKey r := by
  split <;> rfl

theorem keys_upsertCourseRow_mem (db : CoursesTable) (k : String × Int)
    (f : CourseFields) (now : Int) (h : ∃ r ∈ db.rows, courseKey r = k) :
    (upsertCourseRow db k f now).rows.map courseKey = db.rows.map courseKey := by
  unfold upsertCourseRow
  rw [if_pos h]
  dsimp only
  rw [List.map_map]
  apply List.map_congr_left
  intro r _
  exact courseKey_if_update k f now r

theorem keys_upsertCourseRow_new (db : CoursesTable) (k : String × Int)
    (f : CourseFields) (now : Int) (h : ¬∃ r ∈ db.rows, courseKey r = k) :
    (upsertCourseRow db k f now).rows.map courseKey =
      db.rows.map courseKey ++ [k] := by
  unfold upsertCourseRow
  rw [if_neg h]
  simp [courseKey_newCourseRow]

theorem length_upsertCourseRow_mem (db : CoursesTable) (k : String × Int)
    (f : CourseFields) (now : Int) (h : ∃ r ∈ db.rows, courseKey r = k) :
    (upsertCourseRow db k f now).rows.length = db.rows.length := by
  unfold upsertCourseRow
  rw [if_pos h]
  simp

theorem upsertCourseRow_sets_fields (db : CoursesTable) (k : String × Int)
    (f : CourseFields) (now : Int) :
    ∀ r ∈ (upsertCourseRow db k f now).rows, courseKey r = k →
      r = setFields r f now := by
  unfold upsertCourseRow
  split
  next hex =>
    intro r hr hk
    simp only [List.mem_map] at hr
    obtain ⟨r0, hr0, he⟩ := hr
    by_cases h0 : courseKey r0 = k
    · rw [if_pos h0] at he
      subst he
      rfl
    · rw [if_neg h0] at he
      subst he
      exact absurd hk h0
  next hex =>
    intro r hr hk
    simp only [List.mem_append, List.mem_singleton] at hr
    rcases hr with hr | hr
    · exact absurd ⟨r, hr, hk⟩ hex
    · subst hr
      rfl

theorem nodup_applyElement (now : Int) (db : CoursesTable) (el : RawElement)
    (h : (db.rows.map courseKey).Nodup) :
    ((applyElement now db el).rows.map courseKey).Nodup := by
  unfold applyElement
  cases hn : usableName el with
  | none => exact h
  | some n =>
    dsimp only
    by_cases hex : ∃ r ∈ db.rows, courseKey r = (el.type, el.id)
    · rw [keys_upsertCourseRow_mem _ _ _ _ hex]
      exact h
    · rw [keys_upsertCourseRow_new _ _ _ _ hex]
      have hk : (el.type, el.id) ∉ db.rows.map courseKey := by
        intro hmem
        simp only [List.mem_map] at hmem
        obtain ⟨r, hr, he⟩ := hmem
        exact hex ⟨r, hr, he⟩
      simp [List.nodup_append, h, hk]

theorem nodup_upsert_courses (db : CoursesTable) (es : List RawElement) (now : Int)
    (h : (db.rows.map courseKey).Nodup) :
    ((upsert_courses_table es now db).rows.map courseKey).Nodup := by
  induction es generalizing db with
  | nil => exact h
  | cons el es ih => exact ih _ (nodup_applyElement now db el h)

theorem applyElement_skip (now : Int) (db : CoursesTable) (el : RawElement)
    (h : usableName el = none) : applyElement now db el = db := by
  unfold applyElement
  rw [h]

theorem applyElement_some (now : Int) (db : CoursesTable) (el : RawElement)
    (n : String) (h : usableName el = some n) :
    applyElement now db el =
      upsertCourseRow db (el.type, el.id) (fieldsOfEl el n) now := by
  unfold applyElement
  rw [h]

theorem key_present_upsertCourseRow (db : CoursesTable) (k : String × Int)
    (f : CourseFields) (now : Int) :
    ∃ r ∈ (upsertCourseRow db k f now).rows, courseKey r = k := by
  unfold upsertCourseRow
  split
  next hex =>
    obtain ⟨r, hr, hk⟩ := hex
    refine ⟨if courseKey r = k then setFields r f now else r,
            List.mem_map_of_mem _ hr, ?_⟩
    rw [courseKey_if_update, hk]
  next hex =>
    exact ⟨newCourseRow db.nextId k f now, by simp, courseKey_newCourseRow _ _ _ _⟩

theorem key_present_applyElement (now : Int) (db : CoursesTable) (el : RawElement)
    (k : String × Int) (h : ∃ r ∈ db.rows, courseKey r = k) :
    ∃ r ∈ (applyElement now db el).rows, courseKey r = k := by
  cases hn : usableName el with
  | none => rwa [applyElement_skip now db el hn]
  | some n =>
    rw [applyElement_some now db el n hn]
    unfold upsertCourseRow
    split
    · obtain ⟨r, hr, hk⟩ := h
      refine ⟨if courseKey r = (el.type, el.id) then
                setFields r (fieldsOfEl el n) now else r,
              List.mem_map_of_mem _ hr, ?_⟩
      rw [courseKey_if_update, hk]
    · obtain ⟨r, hr, hk⟩ := h
      exact ⟨r, by simp [hr], hk⟩

theorem key_present_run (es : List RawElement) (now : Int) :
    ∀ (db : CoursesTable) (k : String × Int),
      (∃ r ∈ db.rows, courseKey r = k) →
      ∃ r ∈ (upsert_courses_table es now db).rows, courseKey r = k := by
  induction es with
  | nil => intro db k h; exact h
  | cons el es ih =>
    intro db k h
    exact ih (applyElement now db el) k (key_present_applyElement now db el k h)

theorem processed_key_present (es : List RawElement) (now : Int) :
    ∀ (db : CoursesTable) (k : String × Int) (f : CourseFields),
      lastFields es k = some f →
      ∃ r ∈ (upsert_courses_table es now db).rows, courseKey r = k := by
  induction es with
  | nil =>
    intro db k f h
    exact absurd h (by simp [lastFields])
  | cons el es ih =>
    intro db k f h
    cases hrest : lastFields es k with
    | some f2 => exact ih (applyElement now db el) k f2 hrest
    | none =>
      simp only [lastFields, hrest] at h
      cases hn : usableName el with
      | none =>
        simp only [hn] at h
        exact Option.noConfusion h
      | some n =>
        simp only [hn] at h
        split at h
        next hk =>
          subst hk
          apply key_present_run es now (applyElement now db el)
          rw [applyElement_some now db el n hn]
          exact key_present_upsertCourseRow db (el.type, el.id) (fieldsOfEl el n) now
        next => exact Option.noConfusion h

theorem run_eq_map_overrideRow (es : List RawElement) (now : Int) :
    ∀ db : CoursesTable,
      (∀ k f, lastFields es k = some f → ∃ r ∈ db.rows, courseKey r = k) →
      upsert_courses_table es now db =
        { rows := db.rows.map (overrideRow es now), nextId := db.nextId } := by
  induction es with
  | nil =>
    intro db _
    have hid : db.rows.map (overrideRow [] now) = db.rows := by
      have hpt : ∀ r ∈ db.rows, overrideRow [] now r = id r := by
        intro r _
        simp [overrideRow, lastFields]
      rw [List.map_congr_left hpt, List.map_id]
    rw [hid]
    exact rfl
  | cons el es ih =>
    intro db hpres
    cases hn : usableName el with
    | none =>
      have hlf : ∀ k, lastFields (el :: es) k = lastFields es k := by
        intro k
        simp only [lastFields, hn]
        cases lastFields es k <;> rfl
      have hstep : upsert_courses_table (el :: es) now db =
          upsert_courses_table es now db := by
        show upsert_courses_table es now (applyElement now db el) = _
        rw [applyElement_skip now db el hn]
      rw [hstep, ih db (fun k f h => hpres k f (by rw [hlf k]; exact h))]
      congr 1
      apply List.map_congr_left
      intro r _
      simp only [overrideRow, hlf (courseKey r)]
    | some n =>
      have hsome : ∀ k, (el.type, el.id) = k →
          ∃ f, lastFields (el :: es) k = some f := by
        intro k hk
        cases hrest : lastFields es k with
        | some f => exact ⟨f, by simp only [lastFields, hrest]⟩
        | none =>
          refine ⟨fieldsOfEl el n, ?_⟩
          simp only [lastFields, hrest, hn, if_pos hk]
      have hkpres : ∃ r ∈ db.rows, courseKey r = (el.type, el.id) := by
        obtain ⟨f, hf⟩ := hsome (el.type, el.id) rfl
        exact hpres (el.type, el.id) f hf
      have hupd : applyElement now db el =
          { rows := db.rows.map (fun r =>
              if courseKey r = (el.type, el.id) then
                setFields r (fieldsOfEl el n) now else r),
            nextId := db.nextId } := by
        rw [applyElement_some now db el n hn]
        unfold upsertCourseRow
        rw [if_pos hkpres]
      have hstep : upsert_courses_table (el :: es) now db =
          upsert_courses_table es now (applyElement now db el) := rfl
      have hpres2 : ∀ k f, lastFields es k = some f →
          ∃ r ∈ (applyElement now db el).rows, courseKey r = k := by
        intro k f h
        have hcons : lastFields (el :: es) k = some f := by
          simp only [lastFields, h]
        obtain ⟨r, hr, hk⟩ := hpres k f hcons
        rw [hupd]
        refine ⟨if courseKey r = (el.type, el.id) then
                  setFields r (fieldsOfEl el n) now else r,
                List.mem_map_of_mem _ hr, ?_⟩
        rw [courseKey_if_update, hk]
      rw [hstep, ih (applyElement now db el) hpres2, hupd]
      dsimp only
      congr 1
      rw [List.map_map]
      apply List.map_congr_left
      intro r _
      by_cases hk : courseKey r = (el.type, el.id)
      · simp only [Function.comp_apply, if_pos hk]
        simp only [overrideRow, courseKey_setFields, hk]
        simp only [lastFields, hn, if_pos rfl]
        cases hrest : lastFields es (el.type, el.id) <;>
          simp [hrest, setFields_setFields]
      · simp only [Function.comp_apply, if_neg hk]
        simp only [overrideRow, lastFields, hn]
        cases hrest : lastFields es (courseKey r) with
        | some f => simp [hrest]
        | none =>
          have hne : ¬((el.type, el.id) = courseKey r) := fun h => hk h.symm
          simp [hrest, hne]

theorem untouched_key_run (es : List RawElement) (now : Int) :
    ∀ (db : CoursesTable) (k : String × Int), lastFields es k = none →
      ∀ r ∈ (upsert_courses_table es now db).rows, courseKey r = k →
        r ∈ db.rows := by
  induction es with
  | nil => intro db k _ r hr _; exact hr
  | cons el es ih =>
    intro db k hlf r hr hkr
    have hrest : lastFields es k = none := by
      cases hf : lastFields es k with
      | none => rfl
      | some f =>
        exfalso
        simp only [lastFields, hf] at hlf
        exact Option.noConfusion hlf
    have hr' : r ∈ (applyElement now db el).rows :=
      ih (applyElement now db el) k hrest r hr hkr
    cases hn : usableName el with
    | none => rwa [applyElement_skip now db el hn] at hr'
    | some n =>
      have hne : ¬((el.type, el.id) = k) := by
        intro he
        simp only [lastFields, hrest, hn, if_pos he] at hlf
        exact Option.noConfusion hlf
      rw [applyElement_some now db el n hn] at hr'
      unfold upsertCourseRow at hr'
      split at hr'
      · simp only [List.mem_map] at hr'
        obtain ⟨r0, hr0, he⟩ := hr'
        by_cases h0 : courseKey r0 = (el.type, el.id)
        · rw [if_pos h0] at he
          subst he
          rw [courseKey_setFields] at hkr
          exact absurd (h0.symm.trans hkr) hne
        · rw [if_neg h0] at he
          subst he
          exact hr0
      · simp only [List.mem_append, List.mem_singleton] at hr'
        rcases hr' with h' | h'
        · exact h'
        · subst h'
          rw [courseKey_newCourseRow] at hkr
          exact absurd hkr hne

theorem run_settles (es : List RawElement) (now : Int) :
    ∀ db : CoursesTable, ∀ r ∈ (upsert_courses_table es now db).rows,
      ∀ f, lastFields es (courseKey r) = some f → r = setFields r f now := by
  induction es with
  | nil =>
    intro db r hr f h
    exact absurd h (by simp [lastFields])
  | cons el es ih =>
    intro db r hr f hlf
    cases hrest : lastFields es (courseKey r) with
    | some f2 =>
      have hf2 : f2 = f := by
        simp only [lastFields, hrest] at hlf
        exact Option.some.inj hlf
      subst hf2
      exact ih (applyElement now db el) r hr f2 hrest
    | none =>
      simp only [lastFields, hrest] at hlf
      cases hn : usableName el with
      | none =>
        simp only [hn] at hlf
        exact Option.noConfusion hlf
      | some n =>
        simp only [hn] at hlf
        split at hlf
        next hke =>
          have hf : fieldsOfEl el n = f := Option.some.inj hlf
          have hr' : r ∈ (applyElement now db el).rows :=
            untouched_key_run es now (applyElement now db el) (courseKey r)
              hrest r hr rfl
          rw [applyElement_some now db el n hn] at hr'
          have hset := upsertCourseRow_sets_fields db (el.type, el.id)
            (fieldsOfEl el n) now r hr' hke.symm
          rwa [hf] at hset
        next => exact Option.noConfusion hlf

/-! ## Claim theorems -/

/-- Claim C1 (code bug): createRound never fails with ReferentialError. On
an empty database — the courses table has no rows at all — create_round
still inserts a Round row referencing course 1 and returns round id 1,
because the declared FOREIGN KEY is never enforced (PRAGMA foreign_keys is
never enabled on the sqlite3 connection). The claim, and the schema's own
FOREIGN KEY declaration, say the write must be rejected. -/
theorem create_round_inserts_despite_missing_course :
    emptyCourses.rows = [] ∧
    (create_round emptyRounds 1 "2025-05-01" "" "" 0).2 = 1 ∧
    ((create_round emptyRounds 1 "2025-05-01" "" "" 0).1.rows.map
      fun r => r.course_id) = [1] :=
  ⟨rfl, rfl, rfl⟩

/-- Claim C2 (counterexample): normalize_access does not map the tag
mapping with access = "yes" to "public"; it returns the raw value "yes",
which lies outside the closed set claimed. -/
theorem normalize_access_yes_not_in_closed_set :
    normalize_access [("access", "yes")] = "yes" ∧
    ¬("yes" = "private" ∨ "yes" = "public" ∨ "yes" = "unknown") :=
  ⟨by decide, by decide⟩

/-- Claim C2 (amended): whenever the access tag is present and non-empty
after stripping, normalize_access returns that value stripped and
lower-cased verbatim — so access = "private" gives "private" but access =
"yes" gives "yes", not "public", and the result set is not closed; the
membership fallback gives "private" and the empty mapping "unknown". -/
theorem normalize_access_returns_raw_access_value :
    (∀ tags v, tags.lookup "access" = some v → strip_lower v ≠ "" →
        normalize_access tags = strip_lower v) ∧
    normalize_access [("access", "private")] = "private" ∧
    normalize_access [("access", "yes")] = "yes" ∧
    normalize_access [("membership", "required")] = "private" ∧
    normalize_access [] = "unknown" := by
  refine ⟨?_, by decide, by decide, by decide, by decide⟩
  intro tags v hv hne
  simp only [normalize_access, hv, Option.getD_some]
  rw [if_pos hne]

/-- Witness for the amended C2: a concrete application of the general
clause to an access tag outside the three claimed labels. -/
theorem normalize_access_returns_raw_access_value_witness :
    normalize_access [("access", "Customers")] = strip_lower "Customers" :=
  normalize_access_returns_raw_access_value.1
    [("access", "Customers")] "Customers" rfl (by decide)

/-- Claim C3 (counterexample): calling upsert_hole directly with putts = 0
and penalties = 0 stores 0, not NULL — the stored row carries some 0 in
both fields. -/
theorem upsert_hole_stores_zero_verbatim :
    upsert_hole emptyHoles 1 1 4 (some 0) (some 0) "" =
      Except.ok { rows := [{ id := 1, round_id := 1, hole_number := 1, strokes := 4,
                             putts := some 0, penalties := some 0, hole_comment := none }],
                  nextId := 2 } ∧
    some (0 : Int) ≠ (none : Option Int) :=
  ⟨rfl, by decide⟩

/-- Claim C3 (amended): the zero-to-absent normalization lives in the UI
save path, not in upsert_hole: main converts a zero putts or penalties
value to None before the call, so a hole written through the save path
stores NULL for a zero value, while upsert_hole itself stores its optional
arguments verbatim. -/
theorem save_path_zero_stats_stored_absent (db db' : HolesTable)
    (rid hn s putts pens : Int) (c : String)
    (h : upsert_hole db rid hn s (pos_or_none putts) (pos_or_none pens) c =
      Except.ok db') :
    ∀ r ∈ db'.rows, r.round_id = rid → r.hole_number = hn →
      (putts = 0 → r.putts = none) ∧ (pens = 0 → r.penalties = none) := by
  intro r hr h1 h2
  have hf := upsert_hole_ok_fields db db' rid hn s _ _ c h r hr h1 h2
  constructor
  · intro h0; rw [hf.2.1, h0]; simp [pos_or_none]
  · intro h0; rw [hf.2.2.1, h0]; simp [pos_or_none]

/-- Witness for the amended C3: saving hole 1 with strokes 4 and zero
putts/penalties through the conversion of main stores NULL in both
optional fields. -/
theorem save_path_zero_stats_stored_absent_witness :
    holeRowZeroSave.putts = none ∧ holeRowZeroSave.penalties = none :=
  have h := save_path_zero_stats_stored_absent emptyHoles
    { rows := [holeRowZeroSave], nextId := 2 } 1 1 4 0 0 "" rfl
    holeRowZeroSave (List.mem_singleton.mpr rfl) rfl rfl
  ⟨h.1 rfl, h.2 rfl⟩

/-- Claim C4: with a non-empty cache whose maximum updated_at is T and a
non-forced call, any time strictly before T plus the TTL is a cache hit
that leaves the table untouched and does not depend on what the external
service would return, while any time at or after T plus the TTL performs
the full refresh — the boundary age exactly equal to the TTL is a miss. -/
theorem ttl_gate_boundary (db : CoursesTable) (fetched : List RawElement)
    (now T : Int) (h : courses_last_updated db = some T) :
    (now < T + COURSE_CACHE_TTL_SEC →
        maybe_refresh_courses db fetched now false =
          (db, RefreshStatus.usingCached T)) ∧
    (T + COURSE_CACHE_TTL_SEC ≤ now →
        maybe_refresh_courses db fetched now false =
          ((upsert_courses fetched now db).1,
            RefreshStatus.refreshed (upsert_courses fetched now db).2)) := by
  unfold maybe_refresh_courses
  rw [h]
  dsimp only
  constructor
  · intro hlt
    rw [if_pos ⟨rfl, by omega⟩]
  · intro hge
    rw [if_neg (by rintro ⟨-, hlt⟩; omega)]

/-- Witness for C4 at the exact boundary: one cached row stamped at 100,
TTL of seven days; a call one second before the boundary hits the cache, a
call exactly at the boundary refreshes. -/
theorem ttl_gate_boundary_witness :
    maybe_refresh_courses ttlWitnessDb [] (100 + COURSE_CACHE_TTL_SEC - 1) false
      = (ttlWitnessDb, RefreshStatus.usingCached 100) ∧
    maybe_refresh_courses ttlWitnessDb [] (100 + COURSE_CACHE_TTL_SEC) false
      = ((upsert_courses [] (100 + COURSE_CACHE_TTL_SEC) ttlWitnessDb).1,
         RefreshStatus.refreshed
           (upsert_courses [] (100 + COURSE_CACHE_TTL_SEC) ttlWitnessDb).2) :=
  ⟨(ttl_gate_boundary ttlWitnessDb [] (100 + COURSE_CACHE_TTL_SEC - 1) 100 rfl).1
      (by decide),
   (ttl_gate_boundary ttlWitnessDb [] (100 + COURSE_CACHE_TTL_SEC) 100 rfl).2
      (by decide)⟩

/-- Claim C7: an out-of-range strokes or hole number — strokes 26, hole 19
or any other violation of the CHECK ranges — makes upsert_hole fail with
the validation error; no table is produced, so the holes table is left
unchanged and the value is never clamped. -/
theorem upsert_hole_out_of_range_rejected (db : HolesTable)
    (rid hn s : Int) (p pe : Option Int) (c : String)
    (h : ¬(1 ≤ hn ∧ hn ≤ 18) ∨ ¬(1 ≤ s ∧ s ≤ 25)) :
    upsert_hole db rid hn s p pe c =
      Except.error HoleWriteError.validationError := by
  unfold upsert_hole
  rw [if_pos h]

/-- Witness for C7: strokes 26 on hole 5 and hole 19 with strokes 4 are
both rejected, with every other argument valid. -/
theorem upsert_hole_out_of_range_rejected_witness :
    upsert_hole emptyHoles 1 5 26 none none "" =
      Except.error HoleWriteError.validationError ∧
    upsert_hole emptyHoles 1 19 4 none none "" =
      Except.error HoleWriteError.validationError :=
  ⟨upsert_hole_out_of_range_rejected emptyHoles 1 5 26 none none ""
      (Or.inr (by decide)),
   upsert_hole_out_of_range_rejected emptyHoles 1 19 4 none none ""
      (Or.inl (by decide))⟩

/-- Claim C9: an element without a usable name contributes nothing to the
merge — running upsert_courses with it anywhere in the batch yields
exactly the table and count obtained with it removed, so the remaining
elements are still processed. -/
theorem nameless_element_skipped (es1 es2 : List RawElement) (el : RawElement)
    (now : Int) (db : CoursesTable) (h : usableName el = none) :
    upsert_courses (es1 ++ el :: es2) now db =
      upsert_courses (es1 ++ es2) now db := by
  unfold upsert_courses upsert_courses_table
  have hskip : ∀ d, applyElement now d el = d := fun d => by
    simp [applyElement, h]
  simp only [Prod.mk.injEq]
  constructor
  · rw [List.foldl_append, List.foldl_append, List.foldl_cons, hskip]
  · simp [List.filter_append, List.filter_cons, h]

/-- Witness for C9: a batch of a nameless and a named element merges
exactly like the batch of the named element alone. -/
theorem nameless_element_skipped_witness :
    upsert_courses ([] ++ namelessEl :: [namedEl]) 5 emptyCourses =
      upsert_courses ([] ++ [namedEl]) 5 emptyCourses :=
  nameless_element_skipped [] [namedEl] namelessEl 5 emptyCourses rfl

/-- Claim C10: at the public write interface empty optional strings are
stored as NULL and non-empty ones verbatim: create_round stores the tees
and notes arguments as NULL exactly when they are empty, and the row
upsert_hole leaves for its key carries a NULL comment exactly when the
comment argument was empty. -/
theorem empty_optional_strings_stored_null (rdb : RoundsTable) (cid : Int)
    (po tees notes : String) (nowR : Int) (hdb db' : HolesTable)
    (rid hn s : Int) (p pe : Option Int) (c : String)
    (hok : upsert_hole hdb rid hn s p pe c = Except.ok db') :
    (create_round rdb cid po tees notes nowR).1.rows =
      rdb.rows ++ [{ id := rdb.nextId, played_on := po, course_id := cid,
                     tees := if tees = "" then none else some tees,
                     round_notes := if notes = "" then none else some notes,
                     created_at_utc := nowR }] ∧
    ∀ r ∈ db'.rows, r.round_id = rid → r.hole_number = hn →
      r.hole_comment = if c = "" then none else some c := by
  constructor
  · rfl
  · intro r hr h1 h2
    have hf := upsert_hole_ok_fields hdb db' rid hn s p pe c hok r hr h1 h2
    simpa [orNone] using hf.2.2.2

/-- Witness for C10: a round saved with empty tees and non-empty notes
stores NULL tees and the notes verbatim; a hole saved with an empty
comment stores a NULL comment. -/
theorem empty_optional_strings_stored_null_witness :
    (create_round emptyRounds 3 "2025-06-01" "" "Windy day" 9).1.rows =
      emptyRounds.rows ++
        [{ id := 1, played_on := "2025-06-01", course_id := 3,
           tees := none, round_notes := some "Windy day",
           created_at_utc := 9 }] :=
  (empty_optional_strings_stored_null emptyRounds 3 "2025-06-01" "" "Windy day" 9
    emptyHoles { rows := [holeRowZeroSave], nextId := 2 } 1 1 4 none none ""
    rfl).1

/-- Claim C6: synchronization keeps at most one courses row per
(osm_type, osm_id) — the keys stay pairwise distinct after any
upsert_courses run — and upserting an element whose key already exists
rewrites that row's mutable fields in place: the key sequence and the row
count are unchanged and the row carrying the key holds exactly the
element's name, coordinates, access, raw tags and timestamp. -/
theorem course_key_unique_and_update_in_place (db : CoursesTable)
    (es : List RawElement) (now : Int)
    (hnd : (db.rows.map courseKey).Nodup) :
    ((upsert_courses es now db).1.rows.map courseKey).Nodup ∧
    ∀ el n, usableName el = some n →
      (el.type, el.id) ∈ db.rows.map courseKey →
      (applyElement now db el).rows.map courseKey = db.rows.map courseKey ∧
      (applyElement now db el).rows.length = db.rows.length ∧
      ∀ r ∈ (applyElement now db el).rows, courseKey r = (el.type, el.id) →
        r = setFields r (fieldsOfEl el n) now := by
  constructor
  · exact nodup_upsert_courses db es now hnd
  · intro el n hn hkmem
    have hex : ∃ r ∈ db.rows, courseKey r = (el.type, el.id) := by
      simp only [List.mem_map] at hkmem
      obtain ⟨r, hr, he⟩ := hkmem
      exact ⟨r, hr, he⟩
    have happ : applyElement now db el =
        upsertCourseRow db (el.type, el.id) (fieldsOfEl el n) now := by
      unfold applyElement
      rw [hn]
    rw [happ]
    exact ⟨keys_upsertCourseRow_mem _ _ _ _ hex,
           length_upsertCourseRow_mem _ _ _ _ hex,
           upsertCourseRow_sets_fields _ _ _ _⟩

/-- Witness for C6: re-syncing an element whose key is already cached
keeps the key list duplicate-free and the row count unchanged. -/
theorem course_key_unique_and_update_in_place_witness :
    ((upsert_courses [namedEl] 5 oneRowDb).1.rows.map courseKey).Nodup ∧
    (applyElement 5 oneRowDb namedEl).rows.length = oneRowDb.rows.length :=
  have h := course_key_unique_and_update_in_place oneRowDb [namedEl] 5 (by decide)
  ⟨h.1, (h.2 namedEl "Green Valley" rfl (by decide)).2.1⟩

/-- Claim C8: writing the same (round_id, hole_number) twice leaves exactly
one holes row for that key, and that row carries the second call's strokes,
putts, penalties and comment. -/
theorem upsert_hole_last_write_wins (db db1 db2 : HolesTable)
    (rid hn s1 s2 : Int) (p1 p2 pe1 pe2 : Option Int) (c1 c2 : String)
    (hU : holeKeyCount db rid hn ≤ 1)
    (h1 : upsert_hole db rid hn s1 p1 pe1 c1 = Except.ok db1)
    (h2 : upsert_hole db1 rid hn s2 p2 pe2 c2 = Except.ok db2) :
    holeKeyCount db2 rid hn = 1 ∧
    ∀ r ∈ db2.rows, r.round_id = rid → r.hole_number = hn →
      r.strokes = s2 ∧ r.putts = p2 ∧ r.penalties = pe2 ∧
        r.hole_comment = orNone c2 := by
  have hc1 := upsert_hole_ok_count db db1 rid hn s1 p1 pe1 c1 h1
  have hc2 := upsert_hole_ok_count db1 db2 rid hn s2 p2 pe2 c2 h2
  exact ⟨by omega, upsert_hole_ok_fields db1 db2 rid hn s2 p2 pe2 c2 h2⟩

/-- Witness for C8, with the spec's own numbers: writing hole 5 with
strokes 4 and then strokes 6 leaves exactly one row for (round 1, hole 5),
and that row reads strokes 6. -/
theorem upsert_hole_last_write_wins_witness :
    holeKeyCount holesRoundOneSecond 1 5 = 1 ∧
    holesRoundOneSecond.rows.map (fun r => r.strokes) = [6] :=
  ⟨(upsert_hole_last_write_wins emptyHoles holesRoundOneFirst holesRoundOneSecond
      1 5 4 6 none none none none "" "" (by decide) rfl rfl).1,
   rfl⟩

/-- Claim C5: running directory synchronization twice with the same element
batch gives, up to the updated_at stamps, exactly the table of a single
run — the second run creates no duplicate rows and leaves the row count
unchanged, whatever the two refresh times are. -/
theorem sync_idempotent (es : List RawElement) (now1 now2 : Int)
    (db : CoursesTable) :
    eraseTimes (upsert_courses es now2 (upsert_courses es now1 db).1).1 =
      eraseTimes (upsert_courses es now1 db).1 ∧
    ((upsert_courses es now2 (upsert_courses es now1 db).1).1).rows.length =
      ((upsert_courses es now1 db).1).rows.length := by
  simp only [upsert_courses]
  have hpres : ∀ k f, lastFields es k = some f →
      ∃ r ∈ (upsert_courses_table es now1 db).rows, courseKey r = k :=
    fun k f h => processed_key_present es now1 db k f h
  have hchar := run_eq_map_overrideRow es now2 (upsert_courses_table es now1 db) hpres
  constructor
  · rw [hchar]
    unfold eraseTimes
    dsimp only
    congr 1
    rw [List.map_map]
    apply List.map_congr_left
    intro r hr
    cases hlf : lastFields es (courseKey r) with
    | none => simp [Function.comp_apply, overrideRow, hlf]
    | some f =>
      have hset := run_settles es now1 db r hr f hlf
      simp only [Function.comp_apply, overrideRow, hlf]
      calc eraseRowTime (setFields r f now2) = setFields r f 0 := rfl
        _ = eraseRowTime (setFields r f now1) := rfl
        _ = eraseRowTime r := by rw [← hset]
  · rw [hchar]
    simp

end GolfApp
